import Mathlib

/-!
Verification of the AVX2 UTF-8 validator in `z_validate.c` against its
natural-language specification.

The C function `z_validate_utf8(const char *data, int64_t len)` is shallowly
embedded here.  Memory is modelled as a total function `data : Nat → Nat`
(the byte at offset `i` of the buffer pointer is `data i % 256`); this is
necessary because the code reads whole 32-byte vectors and therefore can read
bytes at offsets `≥ len`.  An AVX2 256-bit vector is modelled as a function
`Nat → Nat` giving its 32 bytes (only indices `0..31` are ever inspected);
32-bit and 64-bit machine integers are modelled as `Nat` with explicit
`% 2 ^ 32` at the points where the C code truncates (the values the code
builds never overflow 64 bits, so no `% 2 ^ 64` is needed: `req` is bounded
by `2 ^ 36`).
-/

/-! ### Bytes and vectors -/

/-- The byte at offset `i` of the buffer (a `char` read, 8 bits). -/
def byteAt (d : Nat → Nat) (i : Nat) : Nat := d i % 256

/-- `*(vec_t *)(data + base)`: the 32-byte vector loaded at offset `base`. -/
def loadVec (d : Nat → Nat) (base : Nat) : Nat → Nat := fun i => byteAt d (base + i)

/-- `_mm256_set1_epi8 0`, the all-zero vector. -/
def vzero : Nat → Nat := fun _ => 0

/-- `v_shift_left top bottom` (lines 114-117 of `z_validate.c`): move all bytes
of `top` one position forward, filling byte 0 with the last byte of `bottom`.
This is the byte-level result of `_mm256_permute2x128_si256(top, bottom, 0x03)`
followed by `_mm256_alignr_epi8(top, shl_16, 15)`. -/
def v_shift_left (top bottom : Nat → Nat) : Nat → Nat :=
  fun i => if i = 0 then bottom 31 else top (i - 1)

/-- Bitmask with bit `i` (for `i < n`) set iff `p i`. -/
def maskN : Nat → (Nat → Bool) → Nat
  | 0, _ => 0
  | n + 1, p => maskN n p + (if p n then 2 ^ n else 0)

/-- `_mm256_movemask_epi8`: the 32-bit mask of the sign bits (bit 7) of the
32 bytes of a vector. -/
def movemask (v : Nat → Nat) : Nat := maskN 32 (fun i => (v i % 256).testBit 7)

/-- `_mm256_slli_epi16 v n`: shift each 16-bit lane left by `n`.  Lane `j`
consists of bytes `2*j` (low) and `2*j+1` (high). -/
def slli16 (v : Nat → Nat) (n : Nat) : Nat → Nat := fun i =>
  let lane := v (2 * (i / 2)) % 256 + 256 * (v (2 * (i / 2) + 1) % 256)
  let s := (lane <<< n) % 65536
  if i % 2 = 0 then s % 256 else s / 256

/-- `_mm256_srli_epi16 v n`: shift each 16-bit lane right by `n`. -/
def srli16 (v : Nat → Nat) (n : Nat) : Nat → Nat := fun i =>
  let lane := v (2 * (i / 2)) % 256 + 256 * (v (2 * (i / 2) + 1) % 256)
  let s := (lane >>> n) % 65536
  if i % 2 = 0 then s % 256 else s / 256

/-- `_mm256_and_si256`, bytewise. -/
def v_and (a b : Nat → Nat) : Nat → Nat := fun i => a i &&& b i

/-- `_mm256_set1_epi8 c`. -/
def vconst (c : Nat) : Nat → Nat := fun _ => c

/-- `_mm256_shuffle_epi8 table idx` where `table` is a `LOOKUP16` vector (the
same 16 bytes duplicated in both halves), so it is modelled by the 16-entry
list: byte `i` of the result is `table[idx_i mod 16]`, or 0 if the index
byte's sign bit is set. -/
def pshufb (t : List Nat) (idx : Nat → Nat) : Nat → Nat := fun i =>
  if (idx i % 256).testBit 7 then 0 else t.getD (idx i % 16) 0

/-- `_mm256_testz_si256 a b`: true iff `a AND b` is the zero vector. -/
def v_testz (a b : Nat → Nat) : Bool := (List.range 32).all fun i => a i &&& b i = 0

/-! ### The error lookup tables (lines 121-138) -/

/-- Error table indexed by the first nibble (high nibble of the previous byte). -/
def error_1 : List Nat :=
  [0x00, 0x00, 0x00, 0x00,
   0x00, 0x00, 0x00, 0x00,
   0x00, 0x00, 0x00, 0x00,
   0x01, 0x00, 0x06, 0x18]

/-- Error table indexed by the second nibble (low nibble of the previous byte). -/
def error_2 : List Nat :=
  [0x03, 0x01, 0x00, 0x00,
   0x08, 0x10, 0x10, 0x10,
   0x10, 0x10, 0x10, 0x10,
   0x10, 0x14, 0x10, 0x10]

/-- Error table indexed by the third nibble (high nibble of the current byte). -/
def error_3 : List Nat :=
  [0x11, 0x11, 0x11, 0x11,
   0x11, 0x11, 0x11, 0x11,
   0x13, 0x1B, 0x1D, 0x1D,
   0x19, 0x19, 0x19, 0x19]

/-! ### One loop iteration (lines 154-222)

The per-chunk quantities are given their own definitions (parameterised by the
buffer `d` and the chunk index `k`, chunk `k` covering offsets
`[32*k, 32*k+32)`) so that lemmas can speak about them directly; each one
mirrors a line of the C loop body. -/

/-- `bytes = *(vec_t *)data` for chunk `k` (line 155). -/
def bytesAt (d : Nat → Nat) (k : Nat) : Nat → Nat := loadVec d (32 * k)

/-- `high = _mm256_movemask_epi8(bytes)` (line 158). -/
def highOf (d : Nat → Nat) (k : Nat) : Nat := movemask (bytesAt d k)

/-- `set` after the `n = 1` iteration of the inner loop (lines 172-174):
mask of bytes starting with binary `11`. -/
def set1Of (d : Nat → Nat) (k : Nat) : Nat :=
  highOf d k &&& movemask (slli16 (bytesAt d k) 1)

/-- `set` after the `n = 2` iteration: mask of bytes starting with `111`. -/
def set2Of (d : Nat → Nat) (k : Nat) : Nat :=
  set1Of d k &&& movemask (slli16 (bytesAt d k) 2)

/-- `set` after the `n = 3` iteration: mask of bytes starting with `1111`. -/
def set3Of (d : Nat → Nat) (k : Nat) : Nat :=
  set2Of d k &&& movemask (slli16 (bytesAt d k) 3)

/-- `cont = high ^ set` computed at `n = 1` (line 178): the mask of actual
continuation bytes `10xxxxxx`. -/
def contOf (d : Nat → Nat) (k : Nat) : Nat := highOf d k ^^^ set1Of d k

/-- `req` after the inner loop (lines 163, 192): the 64-bit required-continuation
value, merging the carry `lc` with the three shifted leader masks by integer
ADDITION, exactly as the C code does. -/
def reqOf (d : Nat → Nat) (k : Nat) (lc : Nat) : Nat :=
  lc + (set1Of d k <<< 1) + (set2Of d k <<< 2) + (set3Of d k <<< 3)

/-- The same value with the three additions replaced by bitwise OR — the
"more natural operation" mentioned in the comment at lines 180-191, used by
the variant validator for the claim C5. -/
def reqOrOf (d : Nat → Nat) (k : Nat) (lc : Nat) : Nat :=
  lc ||| (set1Of d k <<< 1) ||| (set2Of d k <<< 2) ||| (set3Of d k <<< 3)

/-- The special-case error check (lines 199-217): look up the three nibble
tables for the shifted bytes / current bytes and test whether the three error
masks have a common bit anywhere.  `true` means the check FAILED. -/
def hasError (shifted bytes : Nat → Nat) : Bool :=
  let m_1 := v_and (srli16 shifted 4) (vconst 0x0F)
  let e_1 := pshufb error_1 m_1
  let m_2 := v_and shifted (vconst 0x0F)
  let e_2 := pshufb error_2 m_2
  let m_3 := v_and (srli16 bytes 4) (vconst 0x0F)
  let e_3 := pshufb error_3 m_3
  ! v_testz (v_and e_1 e_2) e_3

/-- One iteration of the main loop for chunk `k`, with state
`(last_cont, next_bytes)`.  `none` models an early `return 0`.
Mirrors lines 155-221: the ASCII skip (`continue`) keeps the state unchanged
— in particular it does NOT update `next_bytes`; a processed chunk that
passes both checks stores `req >> 32` and loads `*(vec_t *)(data + 31)`. -/
def z_chunk_step (d : Nat → Nat) (k : Nat) (lc : Nat) (nb : Nat → Nat) :
    Option (Nat × (Nat → Nat)) :=
  if highOf d k ||| lc = 0 then some (lc, nb)
  else if contOf d k = reqOf d k lc % 2 ^ 32 then
    if hasError nb (bytesAt d k) then none
    else some (reqOf d k lc >>> 32, loadVec d (32 * k + 31))
  else none

/-- The state `(last_cont, next_bytes)` at the start of loop iteration `k`
(`none` if some earlier iteration returned 0).  Iteration 0 starts with
`last_cont = 0` (line 145) and `next_bytes = v_shift_left(*(vec_t *)data, 0)`
(line 151). -/
def z_run (d : Nat → Nat) : Nat → Option (Nat × (Nat → Nat))
  | 0 => some (0, v_shift_left (loadVec d 0) vzero)
  | k + 1 =>
    match z_run d k with
    | some (lc, nb) => z_chunk_step d k lc nb
    | none => none

/-- The number of iterations of `for (; len > 0; len -= 32, data += 32)`:
`⌈len/32⌉` for positive `len`, 0 otherwise. -/
def numChunks (len : Int) : Nat := (len.toNat + 31) / 32

/-- `z_validate_utf8(data, len)` (line 119): run all chunk iterations; an
early `return 0` gives `false`, otherwise the result is `last_cont == 0`
(line 225). -/
def z_validate_utf8 (d : Nat → Nat) (len : Int) : Bool :=
  match z_run d (numChunks len) with
  | some (lc, _) => lc = 0
  | none => false

/-- The buffer described by a byte list, zero beyond its length (the spec's
"zero sentinel" padding for the tail). -/
def listData (l : List Nat) : Nat → Nat := fun i => l.getD i 0

/-- Validate the byte sequence `l`: `z_validate_utf8` on the list's bytes with
`len = l.length`, all bytes beyond the end reading as zero. -/
def z_validate_list (l : List Nat) : Bool :=
  z_validate_utf8 (listData l) (l.length : Int)

/-! ### The OR-merging variant (claim C5) -/

/-- `z_chunk_step` with `req` built by bitwise OR instead of addition; all
other computations are identical. -/
def z_chunk_step_or (d : Nat → Nat) (k : Nat) (lc : Nat) (nb : Nat → Nat) :
    Option (Nat × (Nat → Nat)) :=
  if highOf d k ||| lc = 0 then some (lc, nb)
  else if contOf d k = reqOrOf d k lc % 2 ^ 32 then
    if hasError nb (bytesAt d k) then none
    else some (reqOrOf d k lc >>> 32, loadVec d (32 * k + 31))
  else none

/-- `z_run` for the OR-merging variant. -/
def z_run_or (d : Nat → Nat) : Nat → Option (Nat × (Nat → Nat))
  | 0 => some (0, v_shift_left (loadVec d 0) vzero)
  | k + 1 =>
    match z_run_or d k with
    | some (lc, nb) => z_chunk_step_or d k lc nb
    | none => none

/-- The validator of the OR-merging variant. -/
def z_validate_utf8_or (d : Nat → Nat) (len : Int) : Bool :=
  match z_run_or d (numChunks len) with
  | some (lc, _) => lc = 0
  | none => false

/-! ### Instrumentation: the set of offsets the function reads (claim C2)

Each 32-byte vector load reads offsets `[base, base+32)`.  Offsets are `Int`
(offsets relative to the `data` pointer) so that "reads before `buffer[0]`"
is expressible.  The control flow mirrors `z_run`/`z_chunk_step` exactly. -/

/-- The 32 offsets read by a vector load at offset `base`. -/
def readInterval (base : Int) : List Int :=
  (List.range 32).map fun (i : Nat) => base + (i : Int)

/-- The offsets read by iteration `k` beyond its initial chunk load: the
`next_bytes = *(vec_t *)(data + 31)` load at line 221, executed only when the
chunk was neither skipped nor caused an early return. -/
def z_step_reads (d : Nat → Nat) (k : Nat) (lc : Nat) (nb : Nat → Nat) : List Int :=
  if highOf d k ||| lc = 0 then []
  else if contOf d k = reqOf d k lc % 2 ^ 32 then
    if hasError nb (bytesAt d k) then []
    else readInterval (32 * k + 31)
  else []

/-- All offsets read by loop iterations `0..k-1` (an iteration that is never
reached reads nothing; a reached iteration always loads its chunk, line 155). -/
def z_reads_loop (d : Nat → Nat) : Nat → List Int
  | 0 => []
  | k + 1 =>
    z_reads_loop d k ++
      match z_run d k with
      | some (lc, nb) => readInterval (32 * k) ++ z_step_reads d k lc nb
      | none => []

/-- Every offset (relative to the buffer pointer) that `z_validate_utf8`
reads: the unconditional initial load `*(vec_t *)data` at line 151, plus the
loads of all loop iterations. -/
def z_reads (d : Nat → Nat) (len : Int) : List Int :=
  readInterval 0 ++ z_reads_loop d (numChunks len)

/-! ### Specification-level definitions

These definitions follow the specification's description of UTF-8 (§4 of the
spec and the table in the comment at lines 64-88 of `z_validate.c`); they are
the reference against which the code-level definitions above are compared. -/

/-- A UTF-8 continuation byte `10xxxxxx`. -/
def is_cont (b : Nat) : Bool := 128 ≤ b && b < 192

/-- How many continuation bytes a byte asks for when read as a leader:
3 for `1111xxxx`, 2 for `111xxxxx`, 1 for `11xxxxxx`, 0 otherwise. -/
def cont_need (b : Nat) : Nat :=
  if 240 ≤ b then 3 else if 224 ≤ b then 2 else if 192 ≤ b then 1 else 0

/-- Position `q` of the buffer is required to be a continuation byte, because
some leader byte at most 3 positions earlier asks for at least `q - p`
continuation bytes. -/
def covered (d : Nat → Nat) (q : Nat) : Prop :=
  (1 ≤ q ∧ 1 ≤ cont_need (byteAt d (q - 1))) ∨
  (2 ≤ q ∧ 2 ≤ cont_need (byteAt d (q - 2))) ∨
  (3 ≤ q ∧ 3 ≤ cont_need (byteAt d (q - 3)))

instance (d : Nat → Nat) (q : Nat) : Decidable (covered d q) := by
  unfold covered; infer_instance

/-- Bit `j` of the continuation obligation that chunk `k - 1` hands to chunk
`k`: position `32*k + j` must be a continuation byte because of a `11x`,
`111x` or `1111x` leader among the last three bytes of chunk `k - 1`
(false when `k = 0`: there is no previous chunk). -/
def spillBit (d : Nat → Nat) (k j : Nat) : Bool :=
  decide (1 ≤ k) &&
    (decide (j + 1 ≤ cont_need (byteAt d (32 * k - 1))) ||
     decide (j + 2 ≤ cont_need (byteAt d (32 * k - 2))) ||
     decide (j + 3 ≤ cont_need (byteAt d (32 * k - 3))))

/-- The exact continuation carry that should enter chunk `k` (claim C7). -/
def spillMask (d : Nat → Nat) (k : Nat) : Nat := maskN 3 (spillBit d k)

/-- The five disallowed first-three-nibble classes from the table at lines
83-88 of `z_validate.c` (and §4.2/§4.3 of the spec): nibbles are the high and
low nibble of a leader byte and the high nibble of the following byte. -/
def bad_triple (a b c : Fin 16) : Prop :=
  (a = 12 ∧ b ≤ 1) ∨
  (a = 14 ∧ b = 0 ∧ (c = 8 ∨ c = 9)) ∨
  (a = 14 ∧ b = 13 ∧ (c = 10 ∨ c = 11)) ∨
  (a = 15 ∧ b = 4 ∧ 9 ≤ c) ∨
  (a = 15 ∧ 5 ≤ b)

instance (a b c : Fin 16) : Decidable (bad_triple a b c) := by
  unfold bad_triple; infer_instance

/-- Validity of a byte sequence as UTF-8, per the rules the spec enumerates
(§4 / §8): correct prefix coding, no overlong encodings, no surrogates
U+D800..U+DFFF, no code points above U+10FFFF. -/
def utf8_valid : List Nat → Bool
  | [] => true
  | b :: l =>
    if b < 0x80 then utf8_valid l
    else if b < 0xC2 then false
    else if b < 0xE0 then
      match l with
      | b1 :: l1 => is_cont b1 && utf8_valid l1
      | [] => false
    else if b < 0xF0 then
      match l with
      | b1 :: b2 :: l2 =>
        (if b = 0xE0 then 0xA0 ≤ b1 && b1 < 0xC0
         else if b = 0xED then 0x80 ≤ b1 && b1 < 0xA0
         else is_cont b1) && is_cont b2 && utf8_valid l2
      | _ => false
    else if b < 0xF5 then
      match l with
      | b1 :: b2 :: b3 :: l3 =>
        (if b = 0xF0 then 0x90 ≤ b1 && b1 < 0xC0
         else if b = 0xF4 then 0x80 ≤ b1 && b1 < 0x90
         else is_cont b1) && is_cont b2 && is_cont b3 && utf8_valid l3
      | _ => false
    else false


/-- Overlap witness for the addition-vs-OR analysis (comment at lines 180-191):
the mask of bit positions where at least two of the four summands of `req`
(the carry and the three shifted leader masks) are simultaneously set.  The
addition in `reqOf` and the OR in `reqOrOf` agree exactly when this is zero. -/
def overlapMask (d : Nat → Nat) (k : Nat) (lc : Nat) : Nat :=
  (lc &&& (set1Of d k <<< 1)) ||| (lc &&& (set2Of d k <<< 2)) ||| (lc &&& (set3Of d k <<< 3)) |||
  ((set1Of d k <<< 1) &&& (set2Of d k <<< 2)) ||| ((set1Of d k <<< 1) &&& (set3Of d k <<< 3)) |||
  ((set2Of d k <<< 2) &&& (set3Of d k <<< 3))

/-! ### Bit-level toolbox -/

theorem maskN_lt (n : Nat) (p : Nat → Bool) : maskN n p < 2 ^ n := by
  induction n with
  | zero => simp [maskN]
  | succ n ih =>
    simp only [maskN, pow_succ]
    split <;> omega

theorem testBit_maskN (n : Nat) (p : Nat → Bool) (j : Nat) :
    (maskN n p).testBit j = (decide (j < n) && p j) := by
  induction n with
  | zero => simp [maskN]
  | succ n ih =>
    have hlt := maskN_lt n p
    simp only [maskN]
    by_cases hp : p n = true
    · rw [if_pos hp, Nat.add_comm]
      by_cases hjn : j = n
      · subst hjn
        rw [Nat.testBit_two_pow_add_eq]
        simp [Nat.testBit_lt_two_pow hlt, hp, Nat.lt_succ_self]
      · by_cases hj' : j < n
        · rw [Nat.testBit_two_pow_add_gt hj', ih]
          have h1 : j < n + 1 := by omega
          simp [hj', h1]
        · have h3 : 2 ^ n + maskN n p < 2 ^ (n + 1) := by
            rw [pow_succ]; omega
          have h2 : 2 ^ n + maskN n p < 2 ^ j :=
            lt_of_lt_of_le h3 (Nat.pow_le_pow_right (by norm_num) (by omega))
          have h4 : ¬(j < n + 1) := by omega
          simp [Nat.testBit_lt_two_pow h2, h4]
    · have hp2 : p n = false := by simpa using hp
      rw [if_neg (by simp [hp2]), Nat.add_zero, ih]
      by_cases hjn : j = n
      · subst hjn; simp [hp2]
      · have h5 : (j < n) ↔ (j < n + 1) := by omega
        simp [h5]

theorem add_eq_lor_of_land_eq_zero (x y : Nat) (h : x &&& y = 0) : x + y = x ||| y := by
  induction x using Nat.strong_induction_on generalizing y with
  | _ x ih =>
    rcases Nat.eq_zero_or_pos x with hx | hx
    · subst hx; simp
    · have hd : x / 2 &&& y / 2 = 0 := by
        rw [← Nat.and_div_two, h]
      have ih2 := ih (x / 2) (Nat.div_lt_self hx (by norm_num)) (y / 2) hd
      have h5 : ((x ||| y) % 2 = 1) ↔ (x % 2 = 1 ∨ y % 2 = 1) := Nat.or_mod_two_eq_one
      have hb : ¬(x % 2 = 1 ∧ y % 2 = 1) := by
        intro hc
        have h7 := Nat.and_mod_two_eq_one.mpr hc
        rw [h] at h7
        simp at h7
      have h6 : (x ||| y) / 2 = x / 2 ||| y / 2 := Nat.or_div_two
      omega

theorem lor_mod_two_pow (x y m : Nat) :
    (x ||| y) % 2 ^ m = x % 2 ^ m ||| y % 2 ^ m := by
  apply Nat.eq_of_testBit_eq
  intro i
  simp only [Nat.testBit_or, Nat.testBit_mod_two_pow]
  cases decide (i < m) <;> simp

theorem add_mod_two_pow_eq_lor (x y m : Nat)
    (h : ∀ j, j < m → ¬(x.testBit j = true ∧ y.testBit j = true)) :
    (x + y) % 2 ^ m = (x ||| y) % 2 ^ m := by
  have hd : x % 2 ^ m &&& y % 2 ^ m = 0 := by
    apply Nat.eq_of_testBit_eq
    intro i
    simp only [Nat.testBit_and, Nat.testBit_mod_two_pow, Nat.zero_testBit]
    by_cases hi : i < m
    · simp only [hi]
      cases hx : x.testBit i with
      | false => simp
      | true =>
        cases hy : y.testBit i with
        | false => simp
        | true => exact absurd ⟨hx, hy⟩ (h i hi)
    · simp [hi]
  have hsum := add_eq_lor_of_land_eq_zero _ _ hd
  calc (x + y) % 2 ^ m = (x % 2 ^ m + y % 2 ^ m) % 2 ^ m := by rw [Nat.add_mod]
    _ = (x % 2 ^ m ||| y % 2 ^ m) % 2 ^ m := by rw [hsum]
    _ = (x ||| y) % 2 ^ m % 2 ^ m := by rw [← lor_mod_two_pow]
    _ = (x ||| y) % 2 ^ m := Nat.mod_mod_of_dvd _ dvd_rfl

theorem exists_least_testBit (x : Nat) (h : x ≠ 0) :
    ∃ i, x.testBit i = true ∧ ∀ j, j < i → x.testBit j = false := by
  classical
  have hP : ∃ i, x.testBit i = true := Nat.ne_zero_implies_bit_true h
  refine ⟨Nat.find hP, Nat.find_spec hP, ?_⟩
  intro j hj
  have h2 := Nat.find_min hP hj
  simpa using h2

theorem byteAt_lt (d : Nat → Nat) (i : Nat) : byteAt d i < 256 :=
  Nat.mod_lt _ (by norm_num)

theorem byteAt_mod (d : Nat → Nat) (i : Nat) : byteAt d i % 256 = byteAt d i :=
  Nat.mod_mod_of_dvd _ dvd_rfl

theorem slli16_testBit7 (v : Nat → Nat) (n i : Nat) (hn : n ≤ 7) :
    (slli16 v n i % 256).testBit 7 = (v i % 256).testBit (7 - n) := by
  unfold slli16
  set lo := v (2 * (i / 2)) % 256 with hlo
  set hi := v (2 * (i / 2) + 1) % 256 with hhi
  have hlo256 : lo < 256 := Nat.mod_lt _ (by norm_num)
  have hhi256 : hi < 256 := Nat.mod_lt _ (by norm_num)
  have hlane : lo + 256 * hi = 2 ^ 8 * hi + lo := by ring
  by_cases hpar : i % 2 = 0
  · have hieq : 2 * (i / 2) = i := by omega
    rw [if_pos hpar]
    have hm : (lo + 256 * hi) <<< n % 65536 % 256 = (lo + 256 * hi) <<< n % 256 :=
      Nat.mod_mod_of_dvd _ (by norm_num)
    rw [hm, Nat.mod_mod_of_dvd _ dvd_rfl, hlane]
    have h256 : (256 : Nat) = 2 ^ 8 := by norm_num
    rw [h256, Nat.testBit_mod_two_pow, Nat.testBit_shiftLeft,
      Nat.testBit_mul_pow_two_add _ hlo256]
    have h78 : 7 - n < 8 := by omega
    rw [if_pos h78, ← hieq, ← h256, ← hlo]
    simp [hn]
  · have hieq : 2 * (i / 2) + 1 = i := by omega
    rw [if_neg hpar]
    have hlt16 : (lo + 256 * hi) <<< n % 65536 < 65536 := Nat.mod_lt _ (by norm_num)
    have hdivlt : (lo + 256 * hi) <<< n % 65536 / 256 < 256 := by omega
    rw [Nat.mod_eq_of_lt hdivlt]
    have ht : ((lo + 256 * hi) <<< n % 65536 / 256).testBit 7 =
        ((lo + 256 * hi) <<< n % 65536).testBit 15 := by
      simp only [Nat.testBit_to_div_mod]
      rw [Nat.div_div_eq_div_mul]
    rw [ht]
    have h65536 : (65536 : Nat) = 2 ^ 16 := by norm_num
    rw [h65536, Nat.testBit_mod_two_pow, Nat.testBit_shiftLeft]
    have hn15 : n ≤ 15 := by omega
    rw [hlane, Nat.testBit_mul_pow_two_add _ hlo256]
    have h158 : ¬(15 - n < 8) := by omega
    rw [if_neg h158]
    have hd2 : (15 : Nat) < 16 := by norm_num
    simp only [hd2, hn15, decide_eq_true_eq, Bool.true_and, decide_eq_true]
    have harith : 15 - n - 8 = 7 - n := by omega
    rw [harith, ← hieq]

theorem testBit_movemask (v : Nat → Nat) (j : Nat) :
    (movemask v).testBit j = (decide (j < 32) && (v j % 256).testBit 7) := by
  rw [movemask, testBit_maskN]

/-! ### Per-chunk characterisations -/

theorem bool_eq_of_iff {a b : Bool} (h : a = true ↔ b = true) : a = b := by
  cases a <;> cases b <;> simp_all

theorem byte_bridge : ∀ b : Nat, b < 256 →
    (b.testBit 7 = decide (128 ≤ b)) ∧
    ((decide (128 ≤ b) && b.testBit 6) = decide (192 ≤ b)) ∧
    ((decide (192 ≤ b) && b.testBit 5) = decide (224 ≤ b)) ∧
    ((decide (224 ≤ b) && b.testBit 4) = decide (240 ≤ b)) ∧
    ((decide (128 ≤ b) ^^ decide (192 ≤ b)) = is_cont b) := by
  set_option maxRecDepth 100000 in decide

theorem bytesAt_mod (d : Nat → Nat) (k j : Nat) :
    bytesAt d k j % 256 = byteAt d (32 * k + j) := by
  simp [bytesAt, loadVec, byteAt_mod]

theorem testBit_highOf (d : Nat → Nat) (k j : Nat) :
    (highOf d k).testBit j = (decide (j < 32) && decide (128 ≤ byteAt d (32 * k + j))) := by
  rw [highOf, testBit_movemask, bytesAt_mod, (byte_bridge _ (byteAt_lt d _)).1]

theorem testBit_set1Of (d : Nat → Nat) (k j : Nat) :
    (set1Of d k).testBit j = (decide (j < 32) && decide (192 ≤ byteAt d (32 * k + j))) := by
  rw [set1Of, Nat.testBit_and, testBit_highOf, testBit_movemask,
    slli16_testBit7 _ 1 _ (by norm_num), show (7 : Nat) - 1 = 6 from rfl, bytesAt_mod]
  have h2 := (byte_bridge _ (byteAt_lt d (32 * k + j))).2.1
  cases hd : decide (j < 32)
  · simp
  · simp only [Bool.true_and]
    exact h2

theorem testBit_set2Of (d : Nat → Nat) (k j : Nat) :
    (set2Of d k).testBit j = (decide (j < 32) && decide (224 ≤ byteAt d (32 * k + j))) := by
  rw [set2Of, Nat.testBit_and, testBit_set1Of, testBit_movemask,
    slli16_testBit7 _ 2 _ (by norm_num), show (7 : Nat) - 2 = 5 from rfl, bytesAt_mod]
  have h2 := (byte_bridge _ (byteAt_lt d (32 * k + j))).2.2.1
  cases hd : decide (j < 32)
  · simp
  · simp only [Bool.true_and]
    exact h2

theorem testBit_set3Of (d : Nat → Nat) (k j : Nat) :
    (set3Of d k).testBit j = (decide (j < 32) && decide (240 ≤ byteAt d (32 * k + j))) := by
  rw [set3Of, Nat.testBit_and, testBit_set2Of, testBit_movemask,
    slli16_testBit7 _ 3 _ (by norm_num), show (7 : Nat) - 3 = 4 from rfl, bytesAt_mod]
  have h2 := (byte_bridge _ (byteAt_lt d (32 * k + j))).2.2.2.1
  cases hd : decide (j < 32)
  · simp
  · simp only [Bool.true_and]
    exact h2

theorem testBit_contOf (d : Nat → Nat) (k j : Nat) :
    (contOf d k).testBit j = (decide (j < 32) && is_cont (byteAt d (32 * k + j))) := by
  rw [contOf, Nat.testBit_xor, testBit_highOf, testBit_set1Of]
  have h2 := (byte_bridge _ (byteAt_lt d (32 * k + j))).2.2.2.2
  cases hd : decide (j < 32)
  · simp
  · simp only [Bool.true_and]
    exact h2

theorem testBit_spillMask (d : Nat → Nat) (k j : Nat) :
    (spillMask d k).testBit j = (decide (j < 3) && spillBit d k j) := by
  rw [spillMask, testBit_maskN]

theorem spillMask_lt (d : Nat → Nat) (k : Nat) : spillMask d k < 2 ^ 3 :=
  maskN_lt 3 (spillBit d k)

theorem spillBit_mono (d : Nat → Nat) (k j j2 : Nat) (h : spillBit d k j = true)
    (h2 : j2 ≤ j) : spillBit d k j2 = true := by
  unfold spillBit at h ⊢
  simp only [Bool.and_eq_true, Bool.or_eq_true, decide_eq_true_eq] at h ⊢
  omega

theorem cont_need_ge (b : Nat) :
    (1 ≤ cont_need b ↔ 192 ≤ b) ∧ (2 ≤ cont_need b ↔ 224 ≤ b) ∧
    (3 ≤ cont_need b ↔ 240 ≤ b) := by
  unfold cont_need
  split_ifs <;> omega

theorem cont_need_le (b : Nat) : cont_need b ≤ 3 := by
  unfold cont_need
  split_ifs <;> omega

theorem s1_bit_iff (d : Nat → Nat) (k q : Nat) :
    (set1Of d k <<< 1).testBit q = true ↔
      (1 ≤ q ∧ q - 1 < 32 ∧ 192 ≤ byteAt d (32 * k + (q - 1))) := by
  simp only [Nat.testBit_shiftLeft, testBit_set1Of, Bool.and_eq_true, decide_eq_true_eq,
    ge_iff_le]

theorem s2_bit_iff (d : Nat → Nat) (k q : Nat) :
    (set2Of d k <<< 2).testBit q = true ↔
      (2 ≤ q ∧ q - 2 < 32 ∧ 224 ≤ byteAt d (32 * k + (q - 2))) := by
  simp only [Nat.testBit_shiftLeft, testBit_set2Of, Bool.and_eq_true, decide_eq_true_eq,
    ge_iff_le]

theorem s3_bit_iff (d : Nat → Nat) (k q : Nat) :
    (set3Of d k <<< 3).testBit q = true ↔
      (3 ≤ q ∧ q - 3 < 32 ∧ 240 ≤ byteAt d (32 * k + (q - 3))) := by
  simp only [Nat.testBit_shiftLeft, testBit_set3Of, Bool.and_eq_true, decide_eq_true_eq,
    ge_iff_le]

theorem c_bit_iff (d : Nat → Nat) (k q : Nat) :
    (spillMask d k).testBit q = true ↔ (q < 3 ∧ spillBit d k q = true) := by
  rw [testBit_spillMask]
  simp

theorem reqOr_bit_iff (d : Nat → Nat) (k lc j : Nat) :
    (reqOrOf d k lc).testBit j = true ↔
      (lc.testBit j = true ∨
       (1 ≤ j ∧ j - 1 < 32 ∧ 192 ≤ byteAt d (32 * k + (j - 1))) ∨
       (2 ≤ j ∧ j - 2 < 32 ∧ 224 ≤ byteAt d (32 * k + (j - 2))) ∨
       (3 ≤ j ∧ j - 3 < 32 ∧ 240 ≤ byteAt d (32 * k + (j - 3)))) := by
  rw [reqOrOf]
  simp only [Nat.testBit_or, Bool.or_eq_true, s1_bit_iff, s2_bit_iff, s3_bit_iff]
  tauto

/-! ### Addition versus OR (the carry argument of lines 180-191) -/

theorem lor_eq_zero_split (a b : Nat) (h : a ||| b = 0) : a = 0 ∧ b = 0 := by
  have h2 : ∀ i, a.testBit i = false ∧ b.testBit i = false := by
    intro i
    have h3 : (a ||| b).testBit i = false := by rw [h]; exact Nat.zero_testBit i
    rw [Nat.testBit_or] at h3
    constructor
    · cases ha : a.testBit i <;> simp_all
    · cases hb2 : b.testBit i <;> simp_all
  constructor
  · exact Nat.eq_of_testBit_eq fun i => by rw [(h2 i).1, Nat.zero_testBit]
  · exact Nat.eq_of_testBit_eq fun i => by rw [(h2 i).2, Nat.zero_testBit]

theorem add4_mod_eq_lor4 (a b c e m : Nat)
    (hab : ∀ j, j < m → ¬(a.testBit j = true ∧ b.testBit j = true))
    (hac : ∀ j, j < m → ¬(a.testBit j = true ∧ c.testBit j = true))
    (hae : ∀ j, j < m → ¬(a.testBit j = true ∧ e.testBit j = true))
    (hbc : ∀ j, j < m → ¬(b.testBit j = true ∧ c.testBit j = true))
    (hbe : ∀ j, j < m → ¬(b.testBit j = true ∧ e.testBit j = true))
    (hce : ∀ j, j < m → ¬(c.testBit j = true ∧ e.testBit j = true)) :
    (a + b + c + e) % 2 ^ m = (a ||| b ||| c ||| e) % 2 ^ m := by
  have h1 : (a + b) % 2 ^ m = (a ||| b) % 2 ^ m := add_mod_two_pow_eq_lor _ _ _ hab
  have hab_c : ∀ j, j < m → ¬((a ||| b).testBit j = true ∧ c.testBit j = true) := by
    intro j hj hcon
    obtain ⟨h4, h5⟩ := hcon
    rw [Nat.testBit_or] at h4
    rcases Bool.or_eq_true_iff.mp h4 with h6 | h6
    · exact hac j hj ⟨h6, h5⟩
    · exact hbc j hj ⟨h6, h5⟩
  have h2 : (a + b + c) % 2 ^ m = (a ||| b ||| c) % 2 ^ m := by
    calc (a + b + c) % 2 ^ m = ((a + b) % 2 ^ m + c % 2 ^ m) % 2 ^ m := by
          rw [Nat.add_mod]
      _ = ((a ||| b) % 2 ^ m + c % 2 ^ m) % 2 ^ m := by rw [h1]
      _ = ((a ||| b) + c) % 2 ^ m := by rw [← Nat.add_mod]
      _ = (a ||| b ||| c) % 2 ^ m := add_mod_two_pow_eq_lor _ _ _ hab_c
  have habc_e : ∀ j, j < m → ¬((a ||| b ||| c).testBit j = true ∧ e.testBit j = true) := by
    intro j hj hcon
    obtain ⟨h4, h5⟩ := hcon
    rw [Nat.testBit_or] at h4
    rcases Bool.or_eq_true_iff.mp h4 with h6 | h6
    · rw [Nat.testBit_or] at h6
      rcases Bool.or_eq_true_iff.mp h6 with h7 | h7
      · exact hae j hj ⟨h7, h5⟩
      · exact hbe j hj ⟨h7, h5⟩
    · exact hce j hj ⟨h6, h5⟩
  calc (a + b + c + e) % 2 ^ m = ((a + b + c) % 2 ^ m + e % 2 ^ m) % 2 ^ m := by
        rw [Nat.add_mod]
    _ = ((a ||| b ||| c) % 2 ^ m + e % 2 ^ m) % 2 ^ m := by rw [h2]
    _ = ((a ||| b ||| c) + e) % 2 ^ m := by rw [← Nat.add_mod]
    _ = (a ||| b ||| c ||| e) % 2 ^ m := add_mod_two_pow_eq_lor _ _ _ habc_e

theorem req_eq_reqOr_of_no_overlap (d : Nat → Nat) (k lc : Nat)
    (h : overlapMask d k lc = 0) : reqOf d k lc = reqOrOf d k lc := by
  unfold overlapMask at h
  obtain ⟨h5, h23⟩ := lor_eq_zero_split _ _ h
  obtain ⟨h4, h13⟩ := lor_eq_zero_split _ _ h5
  obtain ⟨h3, h12⟩ := lor_eq_zero_split _ _ h4
  obtain ⟨h2, h03⟩ := lor_eq_zero_split _ _ h3
  obtain ⟨h01, h02⟩ := lor_eq_zero_split _ _ h2
  unfold reqOf reqOrOf
  have e1 : lc + (set1Of d k <<< 1) = lc ||| (set1Of d k <<< 1) :=
    add_eq_lor_of_land_eq_zero _ _ h01
  have d2 : (lc ||| (set1Of d k <<< 1)) &&& (set2Of d k <<< 2) = 0 := by
    rw [Nat.and_distrib_right, h02, h12]
    simp
  have e2 : (lc ||| (set1Of d k <<< 1)) + (set2Of d k <<< 2) =
      (lc ||| (set1Of d k <<< 1)) ||| (set2Of d k <<< 2) :=
    add_eq_lor_of_land_eq_zero _ _ d2
  have d3 : ((lc ||| (set1Of d k <<< 1)) ||| (set2Of d k <<< 2)) &&& (set3Of d k <<< 3) = 0 := by
    rw [Nat.and_distrib_right, Nat.and_distrib_right, h03, h13, h23]
    simp
  have e3 : ((lc ||| (set1Of d k <<< 1)) ||| (set2Of d k <<< 2)) + (set3Of d k <<< 3) =
      ((lc ||| (set1Of d k <<< 1)) ||| (set2Of d k <<< 2)) ||| (set3Of d k <<< 3) :=
    add_eq_lor_of_land_eq_zero _ _ d3
  rw [e1, e2, e3]

theorem cont_ne_of_bit (d : Nat → Nat) (k x p2 : Nat) (hp32 : p2 < 32)
    (hbyte : 192 ≤ byteAt d (32 * k + p2)) (hx : x.testBit p2 = true) :
    contOf d k ≠ x % 2 ^ 32 := by
  intro heq
  have h1 : (contOf d k).testBit p2 = (x % 2 ^ 32).testBit p2 := by rw [heq]
  rw [testBit_contOf, Nat.testBit_mod_two_pow, hx] at h1
  have hic : is_cont (byteAt d (32 * k + p2)) = false := by
    unfold is_cont
    simp only [Bool.and_eq_false_iff, decide_eq_false_iff_not]
    right
    omega
  rw [hic] at h1
  simp [hp32] at h1

/-- If two of the four summands of `req` share a bit (a carry would occur in
the addition), then the continuation-mask check fails for both the addition
form and the OR form: below the least shared bit the two agree, and there the
mask already demands a continuation byte at a position `p2` that holds a
leader byte (the "QEDish" argument of the comment at lines 180-191). -/
theorem overlap_both_fail (d : Nat → Nat) (k : Nat)
    (hD : overlapMask d k (spillMask d k) ≠ 0) :
    contOf d k ≠ reqOf d k (spillMask d k) % 2 ^ 32 ∧
    contOf d k ≠ reqOrOf d k (spillMask d k) % 2 ^ 32 := by
  obtain ⟨q, hq, hmin⟩ := exists_least_testBit _ hD
  have hdisj : ∀ j, j < q →
      ((spillMask d k).testBit j = true → (set1Of d k <<< 1).testBit j = true → False) ∧
      ((spillMask d k).testBit j = true → (set2Of d k <<< 2).testBit j = true → False) ∧
      ((spillMask d k).testBit j = true → (set3Of d k <<< 3).testBit j = true → False) ∧
      ((set1Of d k <<< 1).testBit j = true → (set2Of d k <<< 2).testBit j = true → False) ∧
      ((set1Of d k <<< 1).testBit j = true → (set3Of d k <<< 3).testBit j = true → False) ∧
      ((set2Of d k <<< 2).testBit j = true → (set3Of d k <<< 3).testBit j = true → False) := by
    intro j hj
    have h0 := hmin j hj
    refine ⟨?_, ?_, ?_, ?_, ?_, ?_⟩ <;> intro hA hB <;>
      simp [overlapMask, Nat.testBit_or, Nat.testBit_and, hA, hB] at h0
  have hwin : reqOf d k (spillMask d k) % 2 ^ q = reqOrOf d k (spillMask d k) % 2 ^ q := by
    unfold reqOf reqOrOf
    apply add4_mod_eq_lor4
    · intro j hj hcon; exact (hdisj j hj).1 hcon.1 hcon.2
    · intro j hj hcon; exact (hdisj j hj).2.1 hcon.1 hcon.2
    · intro j hj hcon; exact (hdisj j hj).2.2.1 hcon.1 hcon.2
    · intro j hj hcon; exact (hdisj j hj).2.2.2.1 hcon.1 hcon.2
    · intro j hj hcon; exact (hdisj j hj).2.2.2.2.1 hcon.1 hcon.2
    · intro j hj hcon; exact (hdisj j hj).2.2.2.2.2 hcon.1 hcon.2
  have hp2 : ∃ p2, p2 < q ∧ p2 < 32 ∧ 192 ≤ byteAt d (32 * k + p2) ∧
      (reqOrOf d k (spillMask d k)).testBit p2 = true := by
    have hqD := hq
    unfold overlapMask at hqD
    simp only [Nat.testBit_or, Nat.testBit_and, Bool.or_eq_true, Bool.and_eq_true] at hqD
    rcases hqD with ((((⟨hc, hs⟩ | ⟨hc, hs⟩) | ⟨hc, hs⟩) | ⟨hc, hs⟩) | ⟨hc, hs⟩) | ⟨hc, hs⟩
    · -- carry with the 11x mask
      rw [c_bit_iff] at hc
      rw [s1_bit_iff] at hs
      obtain ⟨hq3, hsp⟩ := hc
      obtain ⟨hq1, hq32, hB⟩ := hs
      refine ⟨q - 1, by omega, by omega, hB, ?_⟩
      rw [reqOr_bit_iff]
      left
      rw [testBit_spillMask, spillBit_mono d k q (q - 1) hsp (by omega)]
      simp
      omega
    · -- carry with the 111x mask
      rw [c_bit_iff] at hc
      rw [s2_bit_iff] at hs
      obtain ⟨hq3, hsp⟩ := hc
      obtain ⟨hq2, hq32, hB⟩ := hs
      refine ⟨q - 2, by omega, by omega, by omega, ?_⟩
      rw [reqOr_bit_iff]
      left
      rw [testBit_spillMask, spillBit_mono d k q (q - 2) hsp (by omega)]
      simp
      omega
    · -- carry with the 1111x mask: impossible, the carry has only bits 0..2
      rw [c_bit_iff] at hc
      rw [s3_bit_iff] at hs
      obtain ⟨hq3, -⟩ := hc
      obtain ⟨hq4, -, -⟩ := hs
      omega
    · -- 11x mask with 111x mask
      rw [s1_bit_iff] at hc
      rw [s2_bit_iff] at hs
      obtain ⟨hq1, hq32, hB1⟩ := hc
      obtain ⟨hq2, -, hB2⟩ := hs
      refine ⟨q - 1, by omega, by omega, hB1, ?_⟩
      rw [reqOr_bit_iff]
      right; left
      have hidx : q - 1 - 1 = q - 2 := by omega
      rw [hidx]
      exact ⟨by omega, by omega, by omega⟩
    · -- 11x mask with 1111x mask
      rw [s1_bit_iff] at hc
      rw [s3_bit_iff] at hs
      obtain ⟨hq1, hq32, hB1⟩ := hc
      obtain ⟨hq3, hq33, hB3⟩ := hs
      refine ⟨q - 1, by omega, by omega, hB1, ?_⟩
      rw [reqOr_bit_iff]
      right; right; left
      have hidx : q - 1 - 2 = q - 3 := by omega
      rw [hidx]
      exact ⟨by omega, by omega, by omega⟩
    · -- 111x mask with 1111x mask
      rw [s2_bit_iff] at hc
      rw [s3_bit_iff] at hs
      obtain ⟨hq2, hq32, hB2⟩ := hc
      obtain ⟨hq3, hq33, hB3⟩ := hs
      refine ⟨q - 2, by omega, by omega, by omega, ?_⟩
      rw [reqOr_bit_iff]
      right; left
      have hidx : q - 2 - 1 = q - 3 := by omega
      rw [hidx]
      exact ⟨by omega, by omega, by omega⟩
  obtain ⟨p2, hp2q, hp32, hB, hbitO⟩ := hp2
  have hbitA : (reqOf d k (spillMask d k)).testBit p2 = true := by
    have h1 : (reqOf d k (spillMask d k) % 2 ^ q).testBit p2 =
        (reqOrOf d k (spillMask d k) % 2 ^ q).testBit p2 := by rw [hwin]
    rw [Nat.testBit_mod_two_pow, Nat.testBit_mod_two_pow] at h1
    simp only [hp2q, decide_True, Bool.true_and] at h1
    rw [h1]
    exact hbitO
  exact ⟨cont_ne_of_bit d k _ p2 hp32 hB hbitA, cont_ne_of_bit d k _ p2 hp32 hB hbitO⟩

/-- Bits 32..34 of the OR-form `req` are exactly the continuation obligations
that the last three bytes of chunk `k` impose on chunk `k + 1`. -/
theorem reqOr_shift32_eq_spill (d : Nat → Nat) (k lc : Nat) (hlc : lc < 2 ^ 3) :
    reqOrOf d k lc >>> 32 = spillMask d (k + 1) := by
  have e1 : 32 * (k + 1) - 1 = 32 * k + 31 := by omega
  have e2 : 32 * (k + 1) - 2 = 32 * k + 30 := by omega
  have e3 : 32 * (k + 1) - 3 = 32 * k + 29 := by omega
  have hcn31 := cont_need_ge (byteAt d (32 * k + 31))
  have hcn30 := cont_need_ge (byteAt d (32 * k + 30))
  have hcn29 := cont_need_ge (byteAt d (32 * k + 29))
  have hle31 := cont_need_le (byteAt d (32 * k + 31))
  have hle30 := cont_need_le (byteAt d (32 * k + 30))
  have hle29 := cont_need_le (byteAt d (32 * k + 29))
  apply Nat.eq_of_testBit_eq
  intro j
  rw [Nat.testBit_shiftRight, testBit_spillMask]
  apply bool_eq_of_iff
  match j with
  | 0 =>
    have hlcf : lc.testBit 32 = false :=
      Nat.testBit_lt_two_pow (lt_of_lt_of_le hlc (by norm_num))
    rw [reqOr_bit_iff]
    unfold spillBit
    rw [e1, e2, e3]
    simp only [Bool.and_eq_true, Bool.or_eq_true, decide_eq_true_eq]
    norm_num [hlcf]
    omega
  | 1 =>
    have hlcf : lc.testBit 33 = false :=
      Nat.testBit_lt_two_pow (lt_of_lt_of_le hlc (by norm_num))
    rw [reqOr_bit_iff]
    unfold spillBit
    rw [e1, e2, e3]
    simp only [Bool.and_eq_true, Bool.or_eq_true, decide_eq_true_eq]
    norm_num [hlcf]
    omega
  | 2 =>
    have hlcf : lc.testBit 34 = false :=
      Nat.testBit_lt_two_pow (lt_of_lt_of_le hlc (by norm_num))
    rw [reqOr_bit_iff]
    unfold spillBit
    rw [e1, e2, e3]
    simp only [Bool.and_eq_true, Bool.or_eq_true, decide_eq_true_eq]
    norm_num [hlcf]
    omega
  | (i + 3) =>
    have hlcf : lc.testBit (32 + (i + 3)) = false :=
      Nat.testBit_lt_two_pow
        (lt_of_lt_of_le hlc (Nat.pow_le_pow_right (by norm_num) (by omega)))
    rw [reqOr_bit_iff]
    simp only [hlcf, Bool.and_eq_true, decide_eq_true_eq]
    constructor
    · rintro (h | h | h | h)
      · exact absurd h (by decide)
      · exact absurd h (by omega)
      · exact absurd h (by omega)
      · exact absurd h (by omega)
    · rintro ⟨h, -⟩
      exact absurd h (by omega)

/-- A chunk with no high bit set (pure ASCII) imposes no continuation
obligation on the next chunk. -/
theorem skip_no_spill (d : Nat → Nat) (k : Nat) (h : highOf d k = 0) :
    spillMask d (k + 1) = 0 := by
  have hb : ∀ j, j < 32 → byteAt d (32 * k + j) < 128 := by
    intro j hj
    have h1 : (highOf d k).testBit j = false := by rw [h]; exact Nat.zero_testBit j
    rw [testBit_highOf] at h1
    simp only [Bool.and_eq_false_iff, decide_eq_false_iff_not] at h1
    rcases h1 with h1 | h1
    · omega
    · omega
  have e1 : 32 * (k + 1) - 1 = 32 * k + 31 := by omega
  have e2 : 32 * (k + 1) - 2 = 32 * k + 30 := by omega
  have e3 : 32 * (k + 1) - 3 = 32 * k + 29 := by omega
  have h31 := hb 31 (by norm_num)
  have h30 := hb 30 (by norm_num)
  have h29 := hb 29 (by norm_num)
  have hc1 := cont_need_ge (byteAt d (32 * k + 31))
  have hc2 := cont_need_ge (byteAt d (32 * k + 30))
  have hc3 := cont_need_ge (byteAt d (32 * k + 29))
  apply Nat.eq_of_testBit_eq
  intro j
  rw [testBit_spillMask, Nat.zero_testBit]
  cases hj3 : decide (j < 3)
  · simp
  · simp only [Bool.true_and]
    unfold spillBit
    rw [e1, e2, e3]
    have n1 : ¬(j + 1 ≤ cont_need (byteAt d (32 * k + 31))) := by omega
    have n2 : ¬(j + 2 ≤ cont_need (byteAt d (32 * k + 30))) := by omega
    have n3 : ¬(j + 3 ≤ cont_need (byteAt d (32 * k + 29))) := by omega
    simp [n1, n2, n3]

set_option maxHeartbeats 1000000 in
/-- With the exact carry, the low 32 bits of the OR-form `req` for chunk `k`
say precisely which positions of the chunk are covered by a leader byte. -/
theorem reqOr_bit_covered (d : Nat → Nat) (k j : Nat) (hj : j < 32) :
    ((reqOrOf d k (spillMask d k)).testBit j = true ↔ covered d (32 * k + j)) := by
  rw [reqOr_bit_iff, c_bit_iff]
  unfold covered spillBit
  simp only [Bool.and_eq_true, Bool.or_eq_true, decide_eq_true_eq]
  rcases Nat.lt_or_ge j 3 with h3 | h3
  · interval_cases j
    · have a1 : 32 * k + 0 - 1 = 32 * k - 1 := by omega
      have a2 : 32 * k + 0 - 2 = 32 * k - 2 := by omega
      have a3 : 32 * k + 0 - 3 = 32 * k - 3 := by omega
      rw [a1, a2, a3]
      have h1 := cont_need_ge (byteAt d (32 * k - 1))
      have h2 := cont_need_ge (byteAt d (32 * k - 2))
      have h3 := cont_need_ge (byteAt d (32 * k - 3))
      have g1 := cont_need_le (byteAt d (32 * k - 1))
      have g2 := cont_need_le (byteAt d (32 * k - 2))
      have g3 := cont_need_le (byteAt d (32 * k - 3))
      omega
    · have a1 : 32 * k + 1 - 1 = 32 * k + (1 - 1) := by omega
      have a2 : 32 * k + 1 - 2 = 32 * k - 1 := by omega
      have a3 : 32 * k + 1 - 3 = 32 * k - 2 := by omega
      rw [a1, a2, a3]
      have h1 := cont_need_ge (byteAt d (32 * k + (1 - 1)))
      have h2 := cont_need_ge (byteAt d (32 * k - 1))
      have h3 := cont_need_ge (byteAt d (32 * k - 2))
      have g1 := cont_need_le (byteAt d (32 * k - 1))
      have g2 := cont_need_le (byteAt d (32 * k - 2))
      have g3 := cont_need_le (byteAt d (32 * k - 3))
      omega
    · have a1 : 32 * k + 2 - 1 = 32 * k + (2 - 1) := by omega
      have a2 : 32 * k + 2 - 2 = 32 * k + (2 - 2) := by omega
      have a3 : 32 * k + 2 - 3 = 32 * k - 1 := by omega
      rw [a1, a2, a3]
      have h1 := cont_need_ge (byteAt d (32 * k + (2 - 1)))
      have h2 := cont_need_ge (byteAt d (32 * k + (2 - 2)))
      have h3 := cont_need_ge (byteAt d (32 * k - 1))
      have g1 := cont_need_le (byteAt d (32 * k - 1))
      have g2 := cont_need_le (byteAt d (32 * k - 2))
      have g3 := cont_need_le (byteAt d (32 * k - 3))
      omega
  · obtain ⟨i, rfl⟩ : ∃ i, j = i + 3 := ⟨j - 3, by omega⟩
    have a1 : 32 * k + (i + 3) - 1 = 32 * k + (i + 3 - 1) := by omega
    have a2 : 32 * k + (i + 3) - 2 = 32 * k + (i + 3 - 2) := by omega
    have a3 : 32 * k + (i + 3) - 3 = 32 * k + (i + 3 - 3) := by omega
    rw [a1, a2, a3]
    have h1 := cont_need_ge (byteAt d (32 * k + (i + 3 - 1)))
    have h2 := cont_need_ge (byteAt d (32 * k + (i + 3 - 2)))
    have h3 := cont_need_ge (byteAt d (32 * k + (i + 3 - 3)))
    have g1 := cont_need_le (byteAt d (32 * k - 1))
    have g2 := cont_need_le (byteAt d (32 * k - 2))
    have g3 := cont_need_le (byteAt d (32 * k - 3))
    omega

/-- Bytes of a chunk whose `movemask` is zero are all ASCII. -/
theorem high_zero_bytes (d : Nat → Nat) (k : Nat) (h : highOf d k = 0) :
    ∀ j, j < 32 → byteAt d (32 * k + j) < 128 := by
  intro j hj
  have h1 : (highOf d k).testBit j = false := by rw [h]; exact Nat.zero_testBit j
  rw [testBit_highOf] at h1
  simp only [Bool.and_eq_false_iff, decide_eq_false_iff_not] at h1
  rcases h1 with h1 | h1
  · omega
  · omega

/-- A chunk that passes the continuation check (with the exact carry coming
in) matches actual and required continuation bytes pointwise, and hands the
exact carry to the next chunk. -/
theorem chunk_pass_pointwise (d : Nat → Nat) (k : Nat)
    (hpass : contOf d k = reqOf d k (spillMask d k) % 2 ^ 32) :
    (∀ j, j < 32 → (is_cont (byteAt d (32 * k + j)) = true ↔ covered d (32 * k + j))) ∧
    reqOf d k (spillMask d k) >>> 32 = spillMask d (k + 1) := by
  have hno : overlapMask d k (spillMask d k) = 0 := by
    by_contra hne
    exact (overlap_both_fail d k hne).1 hpass
  have heq := req_eq_reqOr_of_no_overlap d k (spillMask d k) hno
  constructor
  · intro j hj
    have h1 : (contOf d k).testBit j = (reqOf d k (spillMask d k) % 2 ^ 32).testBit j := by
      rw [hpass]
    rw [testBit_contOf, Nat.testBit_mod_two_pow, heq] at h1
    simp only [hj, decide_True, Bool.true_and] at h1
    rw [h1]
    exact reqOr_bit_covered d k j hj
  · rw [heq]
    exact reqOr_shift32_eq_spill d k _ (spillMask_lt d k)

/-- A skipped (pure ASCII, no carry) chunk also matches actual and required
continuation bytes pointwise: there are none of either. -/
theorem chunk_skip_pointwise (d : Nat → Nat) (k : Nat) (hhigh : highOf d k = 0)
    (hsp : spillMask d k = 0) :
    ∀ j, j < 32 → (is_cont (byteAt d (32 * k + j)) = true ↔ covered d (32 * k + j)) := by
  intro j hj
  have hb := high_zero_bytes d k hhigh
  constructor
  · intro hic
    have hbj := hb j hj
    unfold is_cont at hic
    simp only [Bool.and_eq_true, decide_eq_true_eq] at hic
    omega
  · intro hcov
    have hro : (reqOrOf d k (spillMask d k)).testBit j = true :=
      (reqOr_bit_covered d k j hj).mpr hcov
    rw [reqOr_bit_iff] at hro
    rcases hro with hro | hro | hro | hro
    · rw [hsp] at hro
      rw [Nat.zero_testBit] at hro
      cases hro
    · obtain ⟨hro1, hro2, hro3⟩ := hro
      have := hb (j - 1) (by omega)
      omega
    · obtain ⟨hro1, hro2, hro3⟩ := hro
      have := hb (j - 2) (by omega)
      omega
    · obtain ⟨hro1, hro2, hro3⟩ := hro
      have := hb (j - 3) (by omega)
      omega

/-! ### The main loop: state invariant and soundness -/

theorem spillMask_zero (d : Nat → Nat) : spillMask d 0 = 0 := by
  simp [spillMask, maskN, spillBit]

/-- With the exact carry coming in, one loop iteration of the original and of
the OR-merging variant behave identically. -/
theorem chunk_step_or_eq (d : Nat → Nat) (k : Nat) (nb : Nat → Nat) :
    z_chunk_step_or d k (spillMask d k) nb = z_chunk_step d k (spillMask d k) nb := by
  unfold z_chunk_step z_chunk_step_or
  by_cases hskip : highOf d k ||| spillMask d k = 0
  · rw [if_pos hskip, if_pos hskip]
  · rw [if_neg hskip, if_neg hskip]
    by_cases hov : overlapMask d k (spillMask d k) = 0
    · rw [req_eq_reqOr_of_no_overlap d k _ hov]
    · obtain ⟨hA, hO⟩ := overlap_both_fail d k hov
      rw [if_neg hO, if_neg hA]

/-- With the exact carry coming in, a successful loop iteration hands the
exact carry to the next chunk. -/
theorem chunk_step_carry (d : Nat → Nat) (k : Nat) (nb nb2 : Nat → Nat) (lc2 : Nat)
    (h : z_chunk_step d k (spillMask d k) nb = some (lc2, nb2)) :
    lc2 = spillMask d (k + 1) := by
  unfold z_chunk_step at h
  by_cases hskip : highOf d k ||| spillMask d k = 0
  · rw [if_pos hskip] at h
    obtain ⟨hhigh, hsp⟩ := lor_eq_zero_split _ _ hskip
    simp only [Option.some.injEq, Prod.mk.injEq] at h
    rw [← h.1, hsp, skip_no_spill d k hhigh]
  · rw [if_neg hskip] at h
    by_cases hpass : contOf d k = reqOf d k (spillMask d k) % 2 ^ 32
    · rw [if_pos hpass] at h
      by_cases herr : hasError nb (bytesAt d k) = true
      · rw [if_pos herr] at h
        cases h
      · rw [if_neg herr] at h
        simp only [Option.some.injEq, Prod.mk.injEq] at h
        rw [← h.1]
        exact (chunk_pass_pointwise d k hpass).2
    · rw [if_neg hpass] at h
      cases h

/-- With the exact carry coming in, a successful loop iteration implies that
actual and required continuation bytes agree across the whole chunk. -/
theorem chunk_step_sound (d : Nat → Nat) (k : Nat) (nb : Nat → Nat) (st : Nat × (Nat → Nat))
    (h : z_chunk_step d k (spillMask d k) nb = some st) :
    ∀ j, j < 32 → (is_cont (byteAt d (32 * k + j)) = true ↔ covered d (32 * k + j)) := by
  unfold z_chunk_step at h
  by_cases hskip : highOf d k ||| spillMask d k = 0
  · obtain ⟨hhigh, hsp⟩ := lor_eq_zero_split _ _ hskip
    exact chunk_skip_pointwise d k hhigh hsp
  · rw [if_neg hskip] at h
    by_cases hpass : contOf d k = reqOf d k (spillMask d k) % 2 ^ 32
    · exact (chunk_pass_pointwise d k hpass).1
    · rw [if_neg hpass] at h
      cases h

/-- Loop invariant: the OR-merging variant runs in lockstep with the original,
and whenever iteration `k` is reached, `last_cont` is the exact spill mask. -/
theorem z_run_invariant (d : Nat → Nat) : ∀ k : Nat,
    z_run_or d k = z_run d k ∧
    (∀ lc nb, z_run d k = some (lc, nb) → lc = spillMask d k) := by
  intro k
  induction k with
  | zero =>
    constructor
    · rfl
    · intro lc nb h
      simp only [z_run, Option.some.injEq, Prod.mk.injEq] at h
      rw [← h.1, spillMask_zero]
  | succ k ih =>
    obtain ⟨iheq, ihlc⟩ := ih
    constructor
    · cases hz : z_run d k with
      | none => simp [z_run_or, z_run, iheq, hz]
      | some st =>
        obtain ⟨lc, nb⟩ := st
        have hlc := ihlc lc nb hz
        subst hlc
        simp only [z_run_or, z_run, iheq, hz]
        exact chunk_step_or_eq d k nb
    · intro lc2 nb2 h
      simp only [z_run] at h
      cases hz : z_run d k with
      | none => rw [hz] at h; cases h
      | some st =>
        obtain ⟨lc, nb⟩ := st
        rw [hz] at h
        have hlc := ihlc lc nb hz
        subst hlc
        exact chunk_step_carry d k nb nb2 lc2 h

/-- If the loop reaches iteration `k` without failing, then on all bytes of
the first `k` chunks the actual continuation bytes are exactly the covered
positions. -/
theorem z_run_sound (d : Nat → Nat) : ∀ k lc nb, z_run d k = some (lc, nb) →
    ∀ q, q < 32 * k → (is_cont (byteAt d q) = true ↔ covered d q) := by
  intro k
  induction k with
  | zero =>
    intro lc nb h q hq
    omega
  | succ k ih =>
    intro lc nb h q hq
    simp only [z_run] at h
    cases hz : z_run d k with
    | none => rw [hz] at h; cases h
    | some st =>
      obtain ⟨lc0, nb0⟩ := st
      rw [hz] at h
      have hlc0 := (z_run_invariant d k).2 lc0 nb0 hz
      subst hlc0
      rcases Nat.lt_or_ge q (32 * k) with hq2 | hq2
      · exact ih _ nb0 hz q hq2
      · have hs := chunk_step_sound d k nb0 (lc, nb) h (q - 32 * k) (by omega)
        rw [show 32 * k + (q - 32 * k) = q from by omega] at hs
        exact hs

/-! ### Which bytes the verdict depends on (claims C9, C3) -/

theorem maskN_congr (n : Nat) (p1 p2 : Nat → Bool) (h : ∀ i, i < n → p1 i = p2 i) :
    maskN n p1 = maskN n p2 := by
  induction n with
  | zero => rfl
  | succ n ih =>
    simp only [maskN]
    rw [ih (fun i hi => h i (by omega)), h n (by omega)]

theorem movemask_congr (v1 v2 : Nat → Nat) (h : ∀ i, i < 32 → v1 i = v2 i) :
    movemask v1 = movemask v2 := by
  apply maskN_congr
  intro i hi
  rw [h i hi]

theorem slli16_congr (v1 v2 : Nat → Nat) (n : Nat) (h : ∀ i, i < 32 → v1 i = v2 i) :
    ∀ i, i < 32 → slli16 v1 n i = slli16 v2 n i := by
  intro i hi
  unfold slli16
  rw [h (2 * (i / 2)) (by omega), h (2 * (i / 2) + 1) (by omega)]

theorem srli16_congr (v1 v2 : Nat → Nat) (n : Nat) (h : ∀ i, i < 32 → v1 i = v2 i) :
    ∀ i, i < 32 → srli16 v1 n i = srli16 v2 n i := by
  intro i hi
  unfold srli16
  rw [h (2 * (i / 2)) (by omega), h (2 * (i / 2) + 1) (by omega)]

theorem v_testz_congr (a1 b1 a2 b2 : Nat → Nat) (ha : ∀ i, i < 32 → a1 i = a2 i)
    (hb : ∀ i, i < 32 → b1 i = b2 i) : v_testz a1 b1 = v_testz a2 b2 := by
  apply bool_eq_of_iff
  unfold v_testz
  simp only [List.all_eq_true, List.mem_range]
  constructor
  · intro hall i hi
    rw [← ha i hi, ← hb i hi]
    exact hall i hi
  · intro hall i hi
    rw [ha i hi, hb i hi]
    exact hall i hi

theorem hasError_congr (s1 s2 b1 b2 : Nat → Nat) (hs : ∀ i, i < 32 → s1 i = s2 i)
    (hb : ∀ i, i < 32 → b1 i = b2 i) : hasError s1 b1 = hasError s2 b2 := by
  have h1 : ∀ i, i < 32 →
      (v_and (pshufb error_1 (v_and (srli16 s1 4) (vconst 0x0F)))
        (pshufb error_2 (v_and s1 (vconst 0x0F)))) i =
      (v_and (pshufb error_1 (v_and (srli16 s2 4) (vconst 0x0F)))
        (pshufb error_2 (v_and s2 (vconst 0x0F)))) i := by
    intro i hi
    have e1 := srli16_congr s1 s2 4 hs i hi
    have e2 := hs i hi
    simp only [v_and, pshufb, e1, e2]
  have h2 : ∀ i, i < 32 →
      (pshufb error_3 (v_and (srli16 b1 4) (vconst 0x0F))) i =
      (pshufb error_3 (v_and (srli16 b2 4) (vconst 0x0F))) i := by
    intro i hi
    have e1 := srli16_congr b1 b2 4 hb i hi
    simp only [v_and, pshufb, e1]
  simp only [hasError]
  rw [v_testz_congr _ _ _ _ h1 h2]

theorem chunk_step_congr (d1 d2 : Nat → Nat) (k lc : Nat) (nb1 nb2 : Nat → Nat)
    (hB : ∀ j, j < 32 → byteAt d1 (32 * k + j) = byteAt d2 (32 * k + j))
    (hnb : ∀ i, i < 32 → nb1 i = nb2 i) :
    (z_chunk_step d1 k lc nb1 = none ∧ z_chunk_step d2 k lc nb2 = none) ∨
    (z_chunk_step d1 k lc nb1 = some (lc, nb1) ∧ z_chunk_step d2 k lc nb2 = some (lc, nb2)) ∨
    (∃ lc2, z_chunk_step d1 k lc nb1 = some (lc2, loadVec d1 (32 * k + 31)) ∧
            z_chunk_step d2 k lc nb2 = some (lc2, loadVec d2 (32 * k + 31))) := by
  have hbytes : ∀ i, i < 32 → bytesAt d1 k i = bytesAt d2 k i := fun i hi => hB i hi
  have hhigh : highOf d1 k = highOf d2 k := movemask_congr _ _ hbytes
  have hs1 : set1Of d1 k = set1Of d2 k := by
    unfold set1Of
    rw [hhigh, movemask_congr _ _ (slli16_congr _ _ 1 hbytes)]
  have hs2 : set2Of d1 k = set2Of d2 k := by
    unfold set2Of
    rw [hs1, movemask_congr _ _ (slli16_congr _ _ 2 hbytes)]
  have hs3 : set3Of d1 k = set3Of d2 k := by
    unfold set3Of
    rw [hs2, movemask_congr _ _ (slli16_congr _ _ 3 hbytes)]
  have hcont : contOf d1 k = contOf d2 k := by
    unfold contOf
    rw [hhigh, hs1]
  have hreq : reqOf d1 k lc = reqOf d2 k lc := by
    unfold reqOf
    rw [hs1, hs2, hs3]
  have herr : hasError nb1 (bytesAt d1 k) = hasError nb2 (bytesAt d2 k) :=
    hasError_congr _ _ _ _ hnb hbytes
  unfold z_chunk_step
  rw [hhigh, hcont, hreq, herr]
  by_cases hskip : highOf d2 k ||| lc = 0
  · rw [if_pos hskip, if_pos hskip]
    right; left
    exact ⟨rfl, rfl⟩
  · rw [if_neg hskip, if_neg hskip]
    by_cases hpass : contOf d2 k = reqOf d2 k lc % 2 ^ 32
    · rw [if_pos hpass, if_pos hpass]
      by_cases herr2 : hasError nb2 (bytesAt d2 k) = true
      · rw [if_pos herr2, if_pos herr2]
        left
        exact ⟨rfl, rfl⟩
      · rw [if_neg herr2, if_neg herr2]
        right; right
        exact ⟨reqOf d2 k lc >>> 32, rfl, rfl⟩
    · rw [if_neg hpass, if_neg hpass]
      left
      exact ⟨rfl, rfl⟩

theorem z_run_congr (d1 d2 : Nat → Nat) (N : Nat)
    (h : ∀ i, i < 32 * N → d1 i = d2 i) :
    ∀ k, k ≤ N →
      (z_run d1 k = none ∧ z_run d2 k = none) ∨
      (∃ lc nb1 nb2, z_run d1 k = some (lc, nb1) ∧ z_run d2 k = some (lc, nb2) ∧
        (k < N → ∀ i, i < 32 → nb1 i = nb2 i)) := by
  have hB : ∀ i, i < 32 * N → byteAt d1 i = byteAt d2 i := by
    intro i hi
    unfold byteAt
    rw [h i hi]
  intro k
  induction k with
  | zero =>
    intro _
    right
    refine ⟨0, _, _, rfl, rfl, ?_⟩
    intro hN i hi
    unfold v_shift_left
    by_cases h0 : i = 0
    · rw [if_pos h0, if_pos h0]
    · rw [if_neg h0, if_neg h0]
      unfold loadVec
      exact hB (0 + (i - 1)) (by omega)
  | succ k ih =>
    intro hk1
    rcases ih (by omega) with ⟨h1, h2⟩ | ⟨lc, nb1, nb2, h1, h2, hagr⟩
    · left
      constructor
      · simp [z_run, h1]
      · simp [z_run, h2]
    · have hBk : ∀ j, j < 32 → byteAt d1 (32 * k + j) = byteAt d2 (32 * k + j) := by
        intro j hj
        exact hB (32 * k + j) (by omega)
      rcases chunk_step_congr d1 d2 k lc nb1 nb2 hBk (hagr (by omega)) with
        ⟨hc1, hc2⟩ | ⟨hc1, hc2⟩ | ⟨lc2, hc1, hc2⟩
      · left
        constructor
        · simp [z_run, h1, hc1]
        · simp [z_run, h2, hc2]
      · right
        refine ⟨lc, nb1, nb2, ?_, ?_, fun _ => hagr (by omega)⟩
        · simp [z_run, h1, hc1]
        · simp [z_run, h2, hc2]
      · right
        refine ⟨lc2, loadVec d1 (32 * k + 31), loadVec d2 (32 * k + 31), ?_, ?_, ?_⟩
        · simp [z_run, h1, hc1]
        · simp [z_run, h2, hc2]
        · intro hN i hi
          unfold loadVec
          exact hB (32 * k + 31 + i) (by omega)

theorem z_validate_congr (d1 d2 : Nat → Nat) (len : Int)
    (h : ∀ i, i < 32 * numChunks len → d1 i = d2 i) :
    z_validate_utf8 d1 len = z_validate_utf8 d2 len := by
  rcases z_run_congr d1 d2 (numChunks len) h (numChunks len) le_rfl with
    ⟨h1, h2⟩ | ⟨lc, nb1, nb2, h1, h2, -⟩
  · unfold z_validate_utf8
    rw [h1, h2]
  · unfold z_validate_utf8
    rw [h1, h2]

/-! ### Verdict elimination and chunk-count arithmetic -/

theorem z_validate_true_elim (d : Nat → Nat) (len : Int)
    (h : z_validate_utf8 d len = true) :
    ∃ nb, z_run d (numChunks len) = some (0, nb) ∧ spillMask d (numChunks len) = 0 := by
  unfold z_validate_utf8 at h
  cases hz : z_run d (numChunks len) with
  | none => rw [hz] at h; cases h
  | some st =>
    obtain ⟨lc, nb⟩ := st
    rw [hz] at h
    simp only [decide_eq_true_eq] at h
    subst h
    refine ⟨nb, rfl, ?_⟩
    have h2 := (z_run_invariant d (numChunks len)).2 0 nb hz
    rw [← h2]

theorem numChunks_bounds (L : Nat) :
    L ≤ 32 * numChunks (L : Int) ∧ 32 * numChunks (L : Int) < L + 32 := by
  unfold numChunks
  rw [Int.toNat_ofNat]
  omega

theorem numChunks_nonpos (len : Int) (h : len ≤ 0) : numChunks len = 0 := by
  unfold numChunks
  have h2 : len.toNat = 0 := Int.toNat_of_nonpos h
  rw [h2]

/-! ### Bounds on the offsets read (claim C2) -/

theorem readInterval_mem (b i : Int) (h : i ∈ readInterval b) : b ≤ i ∧ i < b + 32 := by
  unfold readInterval at h
  rcases List.mem_map.mp h with ⟨a, ha, rfl⟩
  rw [List.mem_range] at ha
  omega

theorem z_reads_loop_bound (d : Nat → Nat) (N : Nat) :
    ∀ k, k ≤ N → ∀ i ∈ z_reads_loop d k, 0 ≤ i ∧ i < 32 * (N : Int) + 32 := by
  intro k
  induction k with
  | zero =>
    intro _ i hi
    cases hi
  | succ k ih =>
    intro hk i hi
    unfold z_reads_loop at hi
    rw [List.mem_append] at hi
    rcases hi with hi | hi
    · exact ih (by omega) i hi
    · cases hz : z_run d k with
      | none => rw [hz] at hi; cases hi
      | some st =>
        obtain ⟨lc, nb⟩ := st
        rw [hz] at hi
        rw [List.mem_append] at hi
        rcases hi with hi | hi
        · have h2 := readInterval_mem _ _ hi
          omega
        · unfold z_step_reads at hi
          split_ifs at hi
          · cases hi
          · cases hi
          · have h2 := readInterval_mem _ _ hi
            omega
          · cases hi

/-! ### The claims -/

/-- C1 (code bug): the claim says `z_validate_utf8` returns true iff the bytes
in `[0, length)` are a valid UTF-8 sequence.  The code violates this: on the
35-byte buffer of 32 ASCII bytes followed by the surrogate encoding
`ED A0 80` (zero padding beyond the length), it returns true although the
buffer is not valid UTF-8.  The pure-ASCII first chunk is skipped by the
fast path at lines 159-160 without updating `next_bytes` (line 221 is not
executed on `continue`), so the second chunk's nibble error check runs on a
stale shifted vector and misses the surrogate. -/
theorem C1_verdict_vs_utf8 :
    z_validate_list (List.replicate 32 0x61 ++ [0xED, 0xA0, 0x80]) = true ∧
    utf8_valid (List.replicate 32 0x61 ++ [0xED, 0xA0, 0x80]) = false := by
  constructor
  · decide
  · decide

/-- C2 (counterexample): already for `length = 0` the initial vector load at
line 151 reads offset 0, which is outside `[0, 0)`; the claim that no byte
outside `[0, length)` is ever read is false. -/
theorem C2_counterexample :
    (0 : Int) ∈ z_reads (fun _ => 0) 0 ∧ ¬((0 : Int) < 0) := by
  constructor
  · decide
  · decide

/-- C2 (amended): `z_validate_utf8` never reads before the buffer pointer,
and every offset it reads is below `32 * ⌈len/32⌉ + 32` (so it can read up to
62 bytes at or past `buffer[length]`, but never before `buffer[0]`). -/
theorem C2_reads_bounded (d : Nat → Nat) (len : Int) :
    ∀ i ∈ z_reads d len, 0 ≤ i ∧ i < 32 * (numChunks len : Int) + 32 := by
  intro i hi
  unfold z_reads at hi
  rw [List.mem_append] at hi
  rcases hi with hi | hi
  · have h2 := readInterval_mem _ _ hi
    omega
  · exact z_reads_loop_bound d (numChunks len) (numChunks len) le_rfl i hi

/-- Witness for C2_reads_bounded at a concrete input. -/
theorem C2_reads_bounded_witness :
    0 ≤ (0 : Int) ∧ (0 : Int) < 32 * (numChunks 0 : Int) + 32 :=
  C2_reads_bounded (fun _ => 0) 0 0 (by decide)

/-- C3 (counterexample): the claim says every buffer whose final bytes form a
truncated multi-byte sequence is rejected.  For the buffer of length 3 whose
bytes are `F0 90 80` (a 4-byte leader at index 0 whose continuation bytes
extend past index 3) the code returns true when the out-of-bounds byte at
offset 3 happens to be `0x80`: the code completes the sequence from memory
past the buffer. -/
theorem C3_counterexample :
    1 ≤ cont_need (byteAt (listData [0xF0, 0x90, 0x80, 0x80]) 0) ∧
    (3 : Nat) ≤ 0 + cont_need (byteAt (listData [0xF0, 0x90, 0x80, 0x80]) 0) ∧
    z_validate_utf8 (listData [0xF0, 0x90, 0x80, 0x80]) 3 = true := by
  refine ⟨by decide, by decide, by decide⟩

/-- C3 (amended): provided the bytes the validator reads at or past the
buffer length are zero (the zero-sentinel padding of §4.1), every buffer
whose final bytes form a truncated multi-byte sequence — a leader byte at
position `p` asking for continuation bytes at or past index `length` — is
rejected. -/
theorem C3_truncated_rejected (l : List Nat) (p : Nat) (hp : p < l.length)
    (hlead : 1 ≤ cont_need (byteAt (listData l) p))
    (htr : l.length ≤ p + cont_need (byteAt (listData l) p)) :
    z_validate_list l = false := by
  by_contra hcon
  rw [Bool.not_eq_false] at hcon
  unfold z_validate_list at hcon
  obtain ⟨nb, hz, hsp⟩ := z_validate_true_elim _ _ hcon
  obtain ⟨hb1, hb2⟩ := numChunks_bounds l.length
  have hcle := cont_need_le (byteAt (listData l) p)
  rcases Nat.lt_or_ge l.length (32 * numChunks (l.length : Int)) with hlt | hge
  · have hs := z_run_sound (listData l) _ 0 nb hz l.length hlt
    have hz0 : byteAt (listData l) l.length = 0 := by
      unfold byteAt listData
      rw [List.getD_eq_default _ _ le_rfl]
    have hcov : covered (listData l) l.length := by
      unfold covered
      have hi3 : l.length - p = 1 ∨ l.length - p = 2 ∨ l.length - p = 3 := by omega
      rcases hi3 with hi | hi | hi
      · left
        refine ⟨by omega, ?_⟩
        rw [show l.length - 1 = p from by omega]
        omega
      · right; left
        refine ⟨by omega, ?_⟩
        rw [show l.length - 2 = p from by omega]
        omega
      · right; right
        refine ⟨by omega, ?_⟩
        rw [show l.length - 3 = p from by omega]
        omega
    have hic := hs.mpr hcov
    rw [hz0] at hic
    exact absurd hic (by decide)
  · have hsb : spillBit (listData l) (numChunks (l.length : Int)) 0 = true := by
      unfold spillBit
      have hi3 : l.length - p = 1 ∨ l.length - p = 2 ∨ l.length - p = 3 := by omega
      simp only [Bool.and_eq_true, Bool.or_eq_true, decide_eq_true_eq]
      refine ⟨by omega, ?_⟩
      rcases hi3 with hi | hi | hi
      · left; left
        rw [show 32 * numChunks (l.length : Int) - 1 = p from by omega]
        omega
      · left; right
        rw [show 32 * numChunks (l.length : Int) - 2 = p from by omega]
        omega
      · right
        rw [show 32 * numChunks (l.length : Int) - 3 = p from by omega]
        omega
    have hbit : (spillMask (listData l) (numChunks (l.length : Int))).testBit 0 = false := by
      rw [hsp]
      exact Nat.zero_testBit 0
    rw [testBit_spillMask, hsb] at hbit
    simp at hbit

/-- Witness for C3_truncated_rejected at a concrete input. -/
theorem C3_truncated_rejected_witness :
    z_validate_list [0xF0, 0x90, 0x80] = false :=
  C3_truncated_rejected [0xF0, 0x90, 0x80] 0 (by decide) (by decide) (by decide)

/-- C4: the bitwise AND of the three table lookups is nonzero exactly for the
five disallowed nibble-triple classes `C,0-1,*`, `E,0,8-9`, `E,D,A-B`,
`F,4,9-F`, `F,5-F,*`. -/
theorem C4_error_tables : ∀ a b c : Fin 16,
    (error_1.getD a.val 0 &&& error_2.getD b.val 0 &&& error_3.getD c.val 0 ≠ 0) ↔
      bad_triple a b c := by decide

/-- C5: the validator as written (merging the shifted leader masks into `req`
by integer addition) and the variant that merges them by bitwise OR return
equal verdicts on every buffer and length: carries occur only when two
summands overlap, and in that case both variants fail the continuation check
at that same chunk. -/
theorem C5_add_or_equiv (d : Nat → Nat) (len : Int) :
    z_validate_utf8 d len = z_validate_utf8_or d len := by
  unfold z_validate_utf8 z_validate_utf8_or
  rw [(z_run_invariant d (numChunks len)).1]

/-- C6 (code bug): the claim says prefixing a sequence with pure-ASCII bytes
does not change the verdict.  It does: the surrogate `ED A0 80` alone is
rejected, but after a 32-byte ASCII prefix (one whole skipped chunk) it is
accepted, because the ASCII fast path skips the `next_bytes` update and the
following chunk's nibble check runs on stale bytes. -/
theorem C6_alignment_dependence :
    z_validate_list (List.replicate 32 0x61 ++ [0xED, 0xA0, 0x80]) = true ∧
    z_validate_list [0xED, 0xA0, 0x80] = false := by
  constructor
  · decide
  · decide

/-- C7: at the start of every loop iteration that is reached without an
earlier failure return, `last_cont` equals the spill mask: its set bits are
exactly the positions of the upcoming chunk that leaders (`11x`, `111x`,
`1111x`) among the last three bytes of the previous chunk require to be
continuation bytes; before the first chunk it is zero (`spillMask d 0 = 0`). -/
theorem C7_carry_invariant (d : Nat → Nat) (k : Nat) (lc : Nat) (nb : Nat → Nat)
    (h : z_run d k = some (lc, nb)) : lc = spillMask d k :=
  (z_run_invariant d k).2 lc nb h

/-- Witness for C7_carry_invariant at a concrete input. -/
theorem C7_carry_invariant_witness : (0 : Nat) = spillMask (fun _ => 0) 1 :=
  C7_carry_invariant (fun _ => 0) 1 0
    (v_shift_left (loadVec (fun _ => 0) 0) vzero) rfl

/-- C8: for every buffer, `z_validate_utf8` with length 0 returns true. -/
theorem C8_empty_valid (d : Nat → Nat) : z_validate_utf8 d 0 = true := rfl

/-- C9: the verdict depends on the bytes at offsets `[0, 32 * ⌈len/32⌉)` and
nothing else: buffers that agree there get the same verdict, and there are a
length and two buffers agreeing on `[0, len)` but differing after `len`
whose verdicts differ. -/
theorem C9_depends_on_chunk_span :
    (∀ (d1 d2 : Nat → Nat) (len : Int),
        (∀ i, i < 32 * numChunks len → d1 i = d2 i) →
        z_validate_utf8 d1 len = z_validate_utf8 d2 len) ∧
    (∃ (len : Int) (d1 d2 : Nat → Nat),
        0 < len ∧ (∀ i : Nat, (i : Int) < len → d1 i = d2 i) ∧
        z_validate_utf8 d1 len ≠ z_validate_utf8 d2 len) := by
  constructor
  · exact z_validate_congr
  · refine ⟨1, (fun i => if i = 1 then 0x80 else 0), (fun _ => 0), by norm_num, ?_, ?_⟩
    · intro i hi
      have h0 : i = 0 := by omega
      subst h0
      rfl
    · decide

/-- Witness for the universally quantified half of C9_depends_on_chunk_span. -/
theorem C9_depends_on_chunk_span_witness :
    z_validate_utf8 (fun i => if i = 100 then 7 else 0) 33 =
      z_validate_utf8 (fun _ => 0) 33 :=
  C9_depends_on_chunk_span.1 (fun i => if i = 100 then 7 else 0) (fun _ => 0) 33
    (by decide)

/-- C10: for every buffer and every length at most zero (including negative
lengths), the chunk loop body never executes and the zero carry makes the
final check succeed, so `z_validate_utf8` returns true. -/
theorem C10_nonpositive_true (d : Nat → Nat) (len : Int) (h : len ≤ 0) :
    z_validate_utf8 d len = true := by
  unfold z_validate_utf8
  rw [numChunks_nonpos len h]
  rfl

/-- Witness for C10_nonpositive_true at a concrete input. -/
theorem C10_nonpositive_true_witness : z_validate_utf8 (fun _ => 0) (-5) = true :=
  C10_nonpositive_true (fun _ => 0) (-5) (by norm_num)

/-! ### Sanity checks: the concrete cases of §8 of the spec -/

example : z_validate_list [] = true := by decide

example : z_validate_list [0x68, 0x65, 0x6C, 0x6C, 0x6F] = true := by decide

example : z_validate_list [0x61, 0xC3, 0x28] = false := by decide

example : z_validate_list [0xE0, 0xA0, 0x80] = true := by decide

example : z_validate_list [0xF4, 0x90, 0x80, 0x80] = false := by decide

example : z_validate_list [0xC0, 0x80] = false := by decide

example : z_validate_list [0xF4, 0x8F, 0xBF, 0xBF] = true := by decide

example : z_validate_list
    [0x61, 0xC3, 0x80, 0x62, 0xE0, 0xA0, 0x80, 0x63, 0xF0, 0x90, 0x80, 0x80, 0x00] = true := by
  decide
